import Mathlib

/-!
Verification development for the mattors Voronoi-diagram generator.

The repository parts present in source form are `src/geo/bbox.rs`
(axis-aligned bounding boxes over `u32` coordinates, used here through
`PointU32`) and `src/art/voronoi.rs` (the two rasterizers
`gradient_voronoi` and `random_voronoi`).  Collaborator code that the
repository provides elsewhere (the `geo` point type's `lowest`/`highest`
helpers, the k-d tree `kdtree.rs`, the random samplers and the color
generator) is modelled from the specification, as flagged on each such
definition.

Machine integers: the coordinate type is `u32`; it is embedded as `Nat`
with an explicit `% 2^32` at the two places where the source performs
`u32` additions that can overflow (`from_dimensions_and_origin` and
`center`).  `f64` values are embedded exactly as dyadic numbers
(an integer mantissa times a power of two) with round-to-nearest-even
at 53 bits of precision, which is exact IEEE-754 binary64 behaviour on
the normal range exercised by this program.
-/

namespace Mattors

/-- The `u32` coordinate domain: values live in `[0, U32MOD)`. -/
def U32MOD : Nat := 2 ^ 32

/-- Modelled from the spec: the primitive 2D point type of the `geo`
crate (its source file is not part of the provided sources); a pair of
`u32` coordinates, equality component-wise. -/
structure Point where
  x : Nat
  y : Nat
deriving DecidableEq

/-- Modelled from the spec: component-wise minimum of two points, the
`geo` helper `Point::lowest` used by `BoundingBox::expand_by_point`
("mutates min to the component-wise minimum of current min and pt"). -/
def Point.lowest (a b : Point) : Point :=
  ⟨min a.x b.x, min a.y b.y⟩

/-- Modelled from the spec: component-wise maximum of two points, the
`geo` helper `Point::highest` used by `BoundingBox::expand_by_point`. -/
def Point.highest (a b : Point) : Point :=
  ⟨max a.x b.x, max a.y b.y⟩

/-- `BoundingBox<u32>` from `src/geo/bbox.rs`: a min and a max corner. -/
structure BoundingBox where
  min : Point
  max : Point
deriving DecidableEq

/-- `BoundingBox::new`: the empty box with the inverted sentinel, `min`
set to `u32::max_value()` and `max` set to `u32::min_value()`. -/
def BoundingBox.new : BoundingBox :=
  ⟨⟨U32MOD - 1, U32MOD - 1⟩, ⟨0, 0⟩⟩

/-- `BoundingBox::expand_by_point`: `min` becomes the component-wise
minimum with `pt`, `max` the component-wise maximum. -/
def BoundingBox.expand_by_point (bx : BoundingBox) (pt : Point) : BoundingBox :=
  ⟨bx.min.lowest pt, bx.max.highest pt⟩

/-- `BoundingBox::from_dimensions_and_origin`: expand the empty box by
the origin and by `origin + (width, height)`.  The source performs the
additions in `u32`, so they wrap modulo `2^32` (release-profile Rust
semantics), made explicit here. -/
def BoundingBox.from_dimensions_and_origin (origin : Point) (width height : Nat) :
    BoundingBox :=
  (BoundingBox.new.expand_by_point origin).expand_by_point
    ⟨(origin.x + width) % U32MOD, (origin.y + height) % U32MOD⟩

/-- `BoundingBox::from_dimensions`: box of the given size at the origin. -/
def BoundingBox.from_dimensions (width height : Nat) : BoundingBox :=
  BoundingBox.from_dimensions_and_origin ⟨0, 0⟩ width height

/-- `BoundingBox::contains`: inclusive on all four bounds. -/
def BoundingBox.contains (bx : BoundingBox) (pt : Point) : Bool :=
  decide (bx.min.x ≤ pt.x) && decide (bx.max.x ≥ pt.x) &&
    decide (bx.min.y ≤ pt.y) && decide (bx.max.y ≥ pt.y)

/-- `BoundingBox::points`: the four corners in clockwise order starting
at `min`. -/
def BoundingBox.points (bx : BoundingBox) : List Point :=
  [bx.min, ⟨bx.max.x, bx.min.y⟩, bx.max, ⟨bx.min.x, bx.max.y⟩]

/-- `BoundingBox::center`: `((min.x + max.x) / 2, (min.y + max.y) / 2)`
with the additions performed in `u32` (wrapping) and `u32` truncating
division. -/
def BoundingBox.center (bx : BoundingBox) : Point :=
  ⟨((bx.min.x + bx.max.x) % U32MOD) / 2, ((bx.min.y + bx.max.y) % U32MOD) / 2⟩

/-- `FromIterator for BoundingBox`: start from `new()` and
`expand_by_point` for each point in sequence order. -/
def BoundingBox.from_iter (points : List Point) : BoundingBox :=
  points.foldl BoundingBox.expand_by_point BoundingBox.new

/-- Modelled from the spec: a checked-arithmetic variant of
`from_dimensions_and_origin` following the spec's words ("use checked or
widened arithmetic and surface overflow as a construction-time error"),
stated only to compare against the actual wrapping construction. -/
def BoundingBox.from_dimensions_and_origin_checked (origin : Point)
    (width height : Nat) : Option BoundingBox :=
  if origin.x + width < U32MOD ∧ origin.y + height < U32MOD then
    some ((BoundingBox.new.expand_by_point origin).expand_by_point
      ⟨origin.x + width, origin.y + height⟩)
  else none

/-- Modelled from the spec: squared Euclidean distance between two
points, the distance the k-d tree minimizes ("Distance comparisons use
squared Euclidean distance").  Computed in `ℤ` to express the
difference of unsigned coordinates. -/
def dist2 (a b : Point) : ℤ :=
  ((a.x : ℤ) - (b.x : ℤ)) ^ 2 + ((a.y : ℤ) - (b.y : ℤ)) ^ 2

/-- Modelled from the spec: the coordinate of a point on the splitting
axis (`x` at even depth, `y` at odd depth). -/
def axisCoord (isX : Bool) (p : Point) : Nat :=
  if isX then p.x else p.y

/-- Modelled from the spec: the comparison used to sort entries by the
coordinate on the current splitting axis. -/
def kdLe (P : Type) (isX : Bool) (a b : Point × P) : Prop :=
  axisCoord isX a.1 ≤ axisCoord isX b.1

instance (P : Type) (isX : Bool) : DecidableRel (kdLe P isX) :=
  fun _ _ => Nat.decLe _ _

instance (P : Type) (isX : Bool) : IsTotal (Point × P) (kdLe P isX) :=
  ⟨fun _ _ => Nat.le_total _ _⟩

instance (P : Type) (isX : Bool) : IsTrans (Point × P) (kdLe P isX) :=
  ⟨fun _ _ _ h h2 => Nat.le_trans h h2⟩

/-- Modelled from the spec: the k-d tree node — "a point, associated
payload, an axis flag (x or y) indicating the splitting dimension at
that depth, and left/right subtree ownership". -/
inductive KdTree (P : Type) where
  | empty : KdTree P
  | node (point : Point) (payload : P) (isX : Bool)
      (left right : KdTree P) : KdTree P
deriving DecidableEq

/-- All entries stored in a tree, in-order. -/
def KdTree.toList {P : Type} : KdTree P → List (Point × P)
  | .empty => []
  | .node p pl _ l r => l.toList ++ (p, pl) :: r.toList

/-- Modelled from the spec: recursive k-d construction — sort the
entries by the coordinate on the axis selected by depth parity, choose
the median entry as the node, and recurse on the two halves.  The
recursion is driven by a fuel argument (any fuel at least the list
length gives the construction; `from_vector` passes the length). -/
def fromVecAux (P : Type) : Nat → List (Point × P) → Bool → KdTree P
  | 0, _, _ => .empty
  | _ + 1, [], _ => .empty
  | fuel + 1, x :: xs, isX =>
    let l := List.insertionSort (kdLe P isX) (x :: xs)
    let m := (xs.length + 1) / 2
    let nd := l.getD m x
    .node nd.1 nd.2 isX (fromVecAux P fuel (l.take m) (!isX))
      (fromVecAux P fuel (l.drop (m + 1)) (!isX))

/-- Modelled from the spec: `KdTree::from_vector` — empty input gives
the empty tree, otherwise the recursive median construction starting
with the x axis at depth 0. -/
def KdTree.from_vector {P : Type} (entries : List (Point × P)) : KdTree P :=
  fromVecAux P entries.length entries true

/-- Modelled from the spec: the recursive nearest-neighbor search with
the classic pruning rule — descend the near side of the splitting
plane, keep a running best, and visit the far side only if the squared
distance from the query to the splitting plane is less than the current
best squared distance. -/
def nnVisit {P : Type} (q : Point) : KdTree P → (Point × P) → (Point × P)
  | .empty, best => best
  | .node p pl isX l r, best =>
    let best1 := if dist2 q p < dist2 q best.1 then (p, pl) else best
    let qc := axisCoord isX q
    let pc := axisCoord isX p
    if qc < pc then
      let best2 := nnVisit q l best1
      if ((qc : ℤ) - (pc : ℤ)) ^ 2 < dist2 q best2.1 then nnVisit q r best2
      else best2
    else
      let best2 := nnVisit q r best1
      if ((qc : ℤ) - (pc : ℤ)) ^ 2 < dist2 q best2.1 then nnVisit q l best2
      else best2

/-- Modelled from the spec: `KdTree::nearest_neighbor` — `None` on the
empty tree, otherwise the best entry found by the pruned search seeded
with the root entry. -/
def KdTree.nearest_neighbor {P : Type} (t : KdTree P) (q : Point) :
    Option (Point × P) :=
  match t with
  | .empty => none
  | .node p pl _ _ _ => some (nnVisit q t (p, pl))

/-- The k-d tree splitting invariant: at every node, entries of the left
subtree have axis coordinate at most the node's, entries of the right
subtree at least the node's. -/
def KdTree.WF {P : Type} : KdTree P → Prop
  | .empty => True
  | .node p _ isX l r =>
      (∀ e ∈ l.toList, axisCoord isX e.1 ≤ axisCoord isX p) ∧
      (∀ e ∈ r.toList, axisCoord isX p ≤ axisCoord isX e.1) ∧
      l.WF ∧ r.WF

/-- An IEEE-754 binary64 value in the normal range, represented exactly
as the dyadic number `m * 2^e`.  Results of the rounded operations
below are normalized (`|m| ∈ [2^52, 2^53)` or `m = 0`). -/
structure F64 where
  m : ℤ
  e : ℤ
deriving DecidableEq

/-- Fueled base-2 logarithm (`⌊log2 n⌋` for `n ≥ 1`), structural so that
the kernel can evaluate it; fuel 320 covers every magnitude reachable
in this development. -/
def nlog2 : Nat → Nat → Nat
  | 0, _ => 0
  | fuel + 1, n => if n ≤ 1 then 0 else nlog2 fuel (n / 2) + 1

/-- Decide `q * 2^e ≤ a` for an integer exponent `e` using only natural
arithmetic. -/
def cmpPow (a q : Nat) (e : ℤ) : Bool :=
  if 0 ≤ e then decide (q * 2 ^ e.toNat ≤ a)
  else decide (q ≤ a * 2 ^ (-e).toNat)

/-- Round the positive rational `a / q` (`a, q > 0`) to 53 binary
digits, round-to-nearest ties-to-even: returns `(m, e)` with value
`m * 2^e` and `m ∈ [2^52, 2^53]`. -/
def roundPos (a q : Nat) : Nat × ℤ :=
  let e0 : ℤ := (nlog2 320 a : ℤ) - (nlog2 320 q : ℤ)
  let e : ℤ := if cmpPow a q e0 then e0 else e0 - 1
  let k : ℤ := 52 - e
  let n : Nat := if 0 ≤ k then a * 2 ^ k.toNat else a
  let d : Nat := if 0 ≤ k then q else q * 2 ^ (-k).toNat
  let m0 := n / d
  let r := n % d
  let m :=
    if 2 * r < d then m0
    else if d < 2 * r then m0 + 1
    else if m0 % 2 = 0 then m0 else m0 + 1
  (m, e - 52)

/-- Round the rational `p / q` to the nearest binary64 value
(ties-to-even).  `q = 0` (division by zero, unreachable in this
program since every division here has a positive divisor) returns 0. -/
def roundRat (p q : ℤ) : F64 :=
  if q = 0 then ⟨0, 0⟩
  else
    let p2 := if q < 0 then -p else p
    let q2 := if q < 0 then -q else q
    if p2 = 0 then ⟨0, 0⟩
    else
      let me := roundPos p2.natAbs q2.toNat
      if p2 < 0 then ⟨-(me.1 : ℤ), me.2⟩ else ⟨(me.1 : ℤ), me.2⟩

/-- Exact dyadic sum of two binary64 values (before rounding). -/
def F64.addExact (a b : F64) : F64 :=
  if a.e ≤ b.e then ⟨a.m + b.m * 2 ^ (b.e - a.e).toNat, a.e⟩
  else ⟨a.m * 2 ^ (a.e - b.e).toNat + b.m, b.e⟩

/-- A dyadic value as an integer fraction (numerator, positive power-of
two denominator). -/
def F64.toFrac (d : F64) : ℤ × ℤ :=
  if 0 ≤ d.e then (d.m * 2 ^ d.e.toNat, 1) else (d.m, 2 ^ (-d.e).toNat)

/-- Round a (possibly unnormalized) dyadic value to binary64. -/
def roundDy (d : F64) : F64 :=
  roundRat d.toFrac.1 d.toFrac.2

/-- binary64 addition (exact sum, then round-to-nearest-even). -/
def fadd (a b : F64) : F64 :=
  roundDy (a.addExact b)

/-- binary64 subtraction. -/
def fsub (a b : F64) : F64 :=
  roundDy (a.addExact ⟨-b.m, b.e⟩)

/-- binary64 multiplication (exact dyadic product, then round). -/
def fmul (a b : F64) : F64 :=
  roundDy ⟨a.m * b.m, a.e + b.e⟩

/-- binary64 division (exact quotient rounded to nearest-even). -/
def fdiv (a b : F64) : F64 :=
  roundRat (a.toFrac.1 * b.toFrac.2) (a.toFrac.2 * b.toFrac.1)

/-- `f64::from` on an unsigned integer; exact for every `u32` (all are
below `2^53`). -/
def toF64 (n : Nat) : F64 :=
  roundRat (n : ℤ) 1

/-- Rust `as u8` on an `f64`: truncate toward zero, saturating to
`[0, 255]`. -/
def f2u8 (d : F64) : Nat :=
  if d.m ≤ 0 then 0
  else
    let fl : Nat :=
      if 0 ≤ d.e then d.m.toNat * 2 ^ d.e.toNat
      else d.m.toNat / 2 ^ (-d.e).toNat
    if 255 ≤ fl then 255 else fl

/-- `image::Rgb<u8>`: three 8-bit channels. -/
structure Rgb where
  r : Nat
  g : Nat
  b : Nat
deriving DecidableEq

/-- Modelled from the spec: the image-buffer collaborator — a width, a
height, and per-pixel storage, abstracted as a total pixel function
(only coordinates below the bounds are meaningful). -/
structure RgbImage where
  width : Nat
  height : Nat
  pix : Nat → Nat → Rgb

/-- The pixel coordinates `(x, y)` enumerated row-major, the order of
`enumerate_pixels_mut`. -/
def pixelPositions (w h : Nat) : List (Nat × Nat) :=
  (List.range h ×ˢ List.range w).map fun p => (p.2, p.1)

/-- The per-pixel rasterization loop shared by both Voronoi variants:
fold over the pixel positions, query the nearest neighbor, and write
the derived color; `none` models the `unwrap` panic on a failed query. -/
def renderStep {P : Type} (t : KdTree P) (colorOf : Point × P → Rgb)
    (acc : Option (Nat → Nat → Rgb)) (xy : Nat × Nat) :
    Option (Nat → Nat → Rgb) :=
  acc.bind fun pix =>
    (t.nearest_neighbor ⟨xy.1, xy.2⟩).map fun e =>
      fun x y => if x = xy.1 ∧ y = xy.2 then colorOf e else pix x y

def renderFold {P : Type} (t : KdTree P) (colorOf : Point × P → Rgb)
    (l : List (Nat × Nat)) (pix0 : Nat → Nat → Rgb) :
    Option (Nat → Nat → Rgb) :=
  l.foldl (renderStep t colorOf) (some pix0)

/-- `gradient_voronoi` from `src/art/voronoi.rs`.  The random sampler is
an external collaborator called on `thread_rng`; its output is passed
in as `random_points`.  Returns `none` when an `unwrap` inside the
pixel loop would panic. -/
def gradient_voronoi (img : RgbImage) (color1 color2 : Rgb) (npoints : Nat)
    (random_points : List Point) : Option RgbImage :=
  if npoints = 0 then some img
  else
    let points := KdTree.from_vector (random_points.map fun pt => (pt, ()))
    let dr := fsub (toF64 color2.r) (toF64 color1.r)
    let dg := fsub (toF64 color2.g) (toF64 color1.g)
    let db := fsub (toF64 color2.b) (toF64 color1.b)
    let imgWidth := img.width
    (renderFold points
        (fun e =>
          let c := fdiv (toF64 e.1.x) (toF64 imgWidth)
          ⟨f2u8 (fadd (toF64 color1.r) (fmul c dr)),
            f2u8 (fadd (toF64 color1.g) (fmul c dg)),
            f2u8 (fadd (toF64 color1.b) (fmul c db))⟩)
        (pixelPositions img.width img.height) img.pix).map
      fun p => { img with pix := p }

/-- `random_voronoi` from `src/art/voronoi.rs`.  The random sampler and
the color generator are external collaborators; their outputs are the
`random_points` list and the `colorStream` (the i-th generated color is
paired with the i-th point, as the source's `map` over the iterator
does).  Returns `none` when an `unwrap` inside the pixel loop would
panic. -/
def random_voronoi (img : RgbImage) (colorStream : Nat → Rgb) (npoints : Nat)
    (random_points : List Point) : Option RgbImage :=
  if npoints = 0 then some img
  else
    let entries := random_points.enum.map fun ie => (ie.2, colorStream ie.1)
    let points := KdTree.from_vector entries
    (renderFold points (fun e => e.2) (pixelPositions img.width img.height)
        img.pix).map
      fun p => { img with pix := p }

/-! ## Construction lemmas: the built tree stores exactly the input
entries and satisfies the splitting invariant. -/

theorem fromVecAux_perm {P : Type} :
    ∀ (fuel : Nat) (l : List (Point × P)) (isX : Bool), l.length ≤ fuel →
      (fromVecAux P fuel l isX).toList.Perm l := by
  intro fuel
  induction fuel with
  | zero =>
    intro l isX h
    have hl : l = [] := List.length_eq_zero.1 (Nat.le_zero.1 h)
    subst hl
    simp [fromVecAux, KdTree.toList]
  | succ fuel ih =>
    intro l isX h
    match l with
    | [] => simp [fromVecAux, KdTree.toList]
    | x :: xs =>
      have hxl : (x :: xs).length = xs.length + 1 := rfl
      rw [hxl] at h
      have hperm : (List.insertionSort (kdLe P isX) (x :: xs)).Perm (x :: xs) :=
        List.perm_insertionSort _ _
      have hslen : (List.insertionSort (kdLe P isX) (x :: xs)).length =
          xs.length + 1 := by
        simpa using hperm.length_eq
      have hm : (xs.length + 1) / 2 < xs.length + 1 :=
        Nat.div_lt_self (Nat.succ_pos _) one_lt_two
      have hm2 : (xs.length + 1) / 2 <
          (List.insertionSort (kdLe P isX) (x :: xs)).length := by
        rw [hslen]; exact hm
      have htake :
          ((List.insertionSort (kdLe P isX) (x :: xs)).take
            ((xs.length + 1) / 2)).length ≤ fuel := by
        rw [List.length_take, hslen]
        have : (xs.length + 1) / 2 ⊓ (xs.length + 1) ≤ (xs.length + 1) / 2 :=
          inf_le_left
        omega
      have hdrop :
          ((List.insertionSort (kdLe P isX) (x :: xs)).drop
            ((xs.length + 1) / 2 + 1)).length ≤ fuel := by
        rw [List.length_drop, hslen]
        omega
      have hget := List.getD_eq_getElem (List.insertionSort (kdLe P isX) (x :: xs)) x hm2
      have hdecomp :
          (List.insertionSort (kdLe P isX) (x :: xs)).take ((xs.length + 1) / 2) ++
            (List.insertionSort (kdLe P isX) (x :: xs)).getD ((xs.length + 1) / 2) x ::
              (List.insertionSort (kdLe P isX) (x :: xs)).drop ((xs.length + 1) / 2 + 1) =
            List.insertionSort (kdLe P isX) (x :: xs) := by
        rw [hget, ← List.drop_eq_getElem_cons hm2, List.take_append_drop]
      have hperm2 :
          ((List.insertionSort (kdLe P isX) (x :: xs)).take ((xs.length + 1) / 2) ++
            (List.insertionSort (kdLe P isX) (x :: xs)).getD ((xs.length + 1) / 2) x ::
              (List.insertionSort (kdLe P isX) (x :: xs)).drop
                ((xs.length + 1) / 2 + 1)).Perm (x :: xs) := by
        rw [hdecomp]; exact hperm
      simp only [fromVecAux, KdTree.toList]
      exact List.Perm.trans
        (List.Perm.append (ih _ _ htake) (List.Perm.cons _ (ih _ _ hdrop))) hperm2

theorem fromVecAux_wf {P : Type} :
    ∀ (fuel : Nat) (l : List (Point × P)) (isX : Bool), l.length ≤ fuel →
      (fromVecAux P fuel l isX).WF := by
  intro fuel
  induction fuel with
  | zero =>
    intro l isX h
    have hl : l = [] := List.length_eq_zero.1 (Nat.le_zero.1 h)
    subst hl
    simp [fromVecAux, KdTree.WF]
  | succ fuel ih =>
    intro l isX h
    match l with
    | [] => simp [fromVecAux, KdTree.WF]
    | x :: xs =>
      have hxl : (x :: xs).length = xs.length + 1 := rfl
      rw [hxl] at h
      have hsort :
          List.Pairwise (kdLe P isX) (List.insertionSort (kdLe P isX) (x :: xs)) :=
        List.sorted_insertionSort _ _
      have hslen : (List.insertionSort (kdLe P isX) (x :: xs)).length =
          xs.length + 1 := by
        simpa using (List.perm_insertionSort (kdLe P isX) (x :: xs)).length_eq
      have hm2 : (xs.length + 1) / 2 <
          (List.insertionSort (kdLe P isX) (x :: xs)).length := by
        rw [hslen]; exact Nat.div_lt_self (Nat.succ_pos _) one_lt_two
      have htake :
          ((List.insertionSort (kdLe P isX) (x :: xs)).take
            ((xs.length + 1) / 2)).length ≤ fuel := by
        rw [List.length_take, hslen]
        have h2 : (xs.length + 1) / 2 ⊓ (xs.length + 1) ≤ (xs.length + 1) / 2 :=
          inf_le_left
        have h3 : (xs.length + 1) / 2 < xs.length + 1 :=
          Nat.div_lt_self (Nat.succ_pos _) one_lt_two
        omega
      have hdrop :
          ((List.insertionSort (kdLe P isX) (x :: xs)).drop
            ((xs.length + 1) / 2 + 1)).length ≤ fuel := by
        rw [List.length_drop, hslen]
        omega
      have hget := List.getD_eq_getElem (List.insertionSort (kdLe P isX) (x :: xs)) x hm2
      have hta : ∀ e ∈ (List.insertionSort (kdLe P isX) (x :: xs)).take
          ((xs.length + 1) / 2),
          axisCoord isX e.1 ≤ axisCoord isX
            (((List.insertionSort (kdLe P isX) (x :: xs)).getD
              ((xs.length + 1) / 2) x).1) := by
        intro e he
        rw [hget]
        obtain ⟨i, hi, hie⟩ := List.mem_iff_getElem.1 he
        have hi2 : i < (xs.length + 1) / 2 := by
          rw [List.length_take] at hi
          exact (Nat.lt_min.1 hi).1
        have hiS : i < (List.insertionSort (kdLe P isX) (x :: xs)).length :=
          lt_trans hi2 hm2
        have hse : (List.insertionSort (kdLe P isX) (x :: xs))[i] = e := by
          rw [← hie]
          exact (List.getElem_take _).symm
        have hrel := (List.pairwise_iff_getElem.1 hsort) i ((xs.length + 1) / 2)
          hiS hm2 hi2
        rw [hse] at hrel
        exact hrel
      have hdr : ∀ e ∈ (List.insertionSort (kdLe P isX) (x :: xs)).drop
          ((xs.length + 1) / 2 + 1),
          axisCoord isX
            (((List.insertionSort (kdLe P isX) (x :: xs)).getD
              ((xs.length + 1) / 2) x).1) ≤ axisCoord isX e.1 := by
        intro e he
        rw [hget]
        obtain ⟨j, hj, hje⟩ := List.mem_iff_getElem.1 he
        have hjlen : (xs.length + 1) / 2 + 1 + j <
            (List.insertionSort (kdLe P isX) (x :: xs)).length := by
          rw [List.length_drop, hslen] at hj
          rw [hslen]
          omega
        have hse : (List.insertionSort (kdLe P isX) (x :: xs))[(xs.length + 1) / 2 + 1 + j] =
            e := by
          rw [← hje]
          exact (List.getElem_drop _).symm
        have hlt : (xs.length + 1) / 2 < (xs.length + 1) / 2 + 1 + j := by omega
        have hrel := (List.pairwise_iff_getElem.1 hsort) ((xs.length + 1) / 2)
          ((xs.length + 1) / 2 + 1 + j) hm2 hjlen hlt
        rw [hse] at hrel
        exact hrel
      simp only [fromVecAux, KdTree.WF]
      refine ⟨?_, ?_, ih _ _ htake, ih _ _ hdrop⟩
      · intro e he
        exact hta e ((fromVecAux_perm fuel _ (!isX) htake).mem_iff.1 he)
      · intro e he
        exact hdr e ((fromVecAux_perm fuel _ (!isX) hdrop).mem_iff.1 he)

/-- The entries stored by `from_vector` are exactly the input entries. -/
theorem from_vector_toList_perm {P : Type} (entries : List (Point × P)) :
    (KdTree.from_vector entries).toList.Perm entries :=
  fromVecAux_perm entries.length entries true le_rfl

/-- `from_vector` builds a tree satisfying the splitting invariant. -/
theorem from_vector_wf {P : Type} (entries : List (Point × P)) :
    (KdTree.from_vector entries).WF :=
  fromVecAux_wf entries.length entries true le_rfl

/-- A tree built from a nonempty entry list is nonempty. -/
theorem from_vector_ne_empty {P : Type} (entries : List (Point × P))
    (h : entries ≠ []) : KdTree.from_vector entries ≠ KdTree.empty := by
  intro hcon
  have hperm := from_vector_toList_perm entries
  rw [hcon] at hperm
  exact h (hperm.nil_eq.symm)

/-! ## Nearest-neighbor search correctness. -/

/-- The squared axis distance is a lower bound on the squared Euclidean
distance. -/
theorem axis_le_dist2 (q e : Point) (isX : Bool) :
    ((axisCoord isX q : ℤ) - (axisCoord isX e : ℤ)) ^ 2 ≤ dist2 q e := by
  cases isX <;> simp only [axisCoord, dist2, if_true, if_false, Bool.false_eq_true] <;>
    nlinarith [sq_nonneg ((q.x : ℤ) - (e.x : ℤ)), sq_nonneg ((q.y : ℤ) - (e.y : ℤ))]

/-- When an entry lies on the opposite side of the splitting plane from
the query, the squared distance to the plane bounds the squared
distance to the entry from below. -/
theorem plane_le_dist2 (q p e : Point) (isX : Bool)
    (h : (axisCoord isX e ≤ axisCoord isX p ∧ axisCoord isX p ≤ axisCoord isX q) ∨
      (axisCoord isX q ≤ axisCoord isX p ∧ axisCoord isX p ≤ axisCoord isX e)) :
    ((axisCoord isX q : ℤ) - (axisCoord isX p : ℤ)) ^ 2 ≤ dist2 q e := by
  refine le_trans ?_ (axis_le_dist2 q e isX)
  rcases h with ⟨h1, h2⟩ | ⟨h1, h2⟩
  · have h1' : (axisCoord isX e : ℤ) ≤ (axisCoord isX p : ℤ) := by exact_mod_cast h1
    have h2' : (axisCoord isX p : ℤ) ≤ (axisCoord isX q : ℤ) := by exact_mod_cast h2
    nlinarith [mul_nonneg (sub_nonneg.2 h1') (sub_nonneg.2 h2')]
  · have h1' : (axisCoord isX q : ℤ) ≤ (axisCoord isX p : ℤ) := by exact_mod_cast h1
    have h2' : (axisCoord isX p : ℤ) ≤ (axisCoord isX e : ℤ) := by exact_mod_cast h2
    nlinarith [mul_nonneg (sub_nonneg.2 h1') (sub_nonneg.2 h2')]

/-- One near-then-maybe-far step of the search, abstracted over the two
subtrees: the result is sound (comes from the start candidate or a
subtree entry), never worse than the start candidate, and minimal over
both subtrees — using the pruning bound for the far one. -/
theorem branchStep_spec {P : Type} (q : Point) (near far : KdTree P) (pd : ℤ)
    (b1 : Point × P)
    (hnear : ∀ b : Point × P,
      (nnVisit q near b = b ∨ nnVisit q near b ∈ near.toList) ∧
      dist2 q (nnVisit q near b).1 ≤ dist2 q b.1 ∧
      ∀ e ∈ near.toList, dist2 q (nnVisit q near b).1 ≤ dist2 q e.1)
    (hfar : ∀ b : Point × P,
      (nnVisit q far b = b ∨ nnVisit q far b ∈ far.toList) ∧
      dist2 q (nnVisit q far b).1 ≤ dist2 q b.1 ∧
      ∀ e ∈ far.toList, dist2 q (nnVisit q far b).1 ≤ dist2 q e.1)
    (hfarBound : ∀ e ∈ far.toList, pd ≤ dist2 q e.1) :
    ((if pd < dist2 q (nnVisit q near b1).1 then nnVisit q far (nnVisit q near b1)
        else nnVisit q near b1) = b1 ∨
      (if pd < dist2 q (nnVisit q near b1).1 then nnVisit q far (nnVisit q near b1)
        else nnVisit q near b1) ∈ near.toList ∨
      (if pd < dist2 q (nnVisit q near b1).1 then nnVisit q far (nnVisit q near b1)
        else nnVisit q near b1) ∈ far.toList) ∧
    dist2 q (if pd < dist2 q (nnVisit q near b1).1
        then nnVisit q far (nnVisit q near b1) else nnVisit q near b1).1 ≤
      dist2 q b1.1 ∧
    (∀ e ∈ near.toList,
      dist2 q (if pd < dist2 q (nnVisit q near b1).1
          then nnVisit q far (nnVisit q near b1) else nnVisit q near b1).1 ≤
        dist2 q e.1) ∧
    (∀ e ∈ far.toList,
      dist2 q (if pd < dist2 q (nnVisit q near b1).1
          then nnVisit q far (nnVisit q near b1) else nnVisit q near b1).1 ≤
        dist2 q e.1) := by
  obtain ⟨hm2, hd2, hmin2⟩ := hnear b1
  by_cases hp : pd < dist2 q (nnVisit q near b1).1
  · simp only [if_pos hp]
    obtain ⟨hm3, hd3, hmin3⟩ := hfar (nnVisit q near b1)
    refine ⟨?_, le_trans hd3 hd2, ?_, hmin3⟩
    · rcases hm3 with h3 | h3
      · rw [h3]
        rcases hm2 with h2 | h2
        · exact Or.inl h2
        · exact Or.inr (Or.inl h2)
      · exact Or.inr (Or.inr h3)
    · intro e he
      exact le_trans hd3 (hmin2 e he)
  · simp only [if_neg hp]
    have hple : dist2 q (nnVisit q near b1).1 ≤ pd := not_lt.1 hp
    refine ⟨?_, hd2, hmin2, ?_⟩
    · rcases hm2 with h2 | h2
      · exact Or.inl h2
      · exact Or.inr (Or.inl h2)
    · intro e he
      exact le_trans hple (hfarBound e he)

/-- Correctness of the pruned descent on a well-formed tree: the result
comes from the start candidate or the tree, is never farther than the
start candidate, and its squared distance is minimal over the stored
entries. -/
theorem nnVisit_spec {P : Type} (q : Point) :
    ∀ t : KdTree P, t.WF → ∀ b : Point × P,
      (nnVisit q t b = b ∨ nnVisit q t b ∈ t.toList) ∧
      dist2 q (nnVisit q t b).1 ≤ dist2 q b.1 ∧
      ∀ e ∈ t.toList, dist2 q (nnVisit q t b).1 ≤ dist2 q e.1 := by
  intro t
  induction t with
  | empty =>
    intro _ b
    simp [nnVisit, KdTree.toList]
  | node p pl isX l r ihl ihr =>
    intro hwf b
    obtain ⟨hbl, hbr, hwl, hwr⟩ := hwf
    have hb1cases :
        (if dist2 q p < dist2 q b.1 then (p, pl) else b) = (p, pl) ∨
        (if dist2 q p < dist2 q b.1 then (p, pl) else b) = b := by
      by_cases hc : dist2 q p < dist2 q b.1
      · exact Or.inl (if_pos hc)
      · exact Or.inr (if_neg hc)
    have hb1le : dist2 q (if dist2 q p < dist2 q b.1 then (p, pl) else b).1 ≤
        dist2 q b.1 := by
      by_cases hc : dist2 q p < dist2 q b.1
      · rw [if_pos hc]; exact le_of_lt hc
      · rw [if_neg hc]
    have hb1p : dist2 q (if dist2 q p < dist2 q b.1 then (p, pl) else b).1 ≤
        dist2 q p := by
      by_cases hc : dist2 q p < dist2 q b.1
      · rw [if_pos hc]
      · rw [if_neg hc]; exact not_lt.1 hc
    by_cases hside : axisCoord isX q < axisCoord isX p
    · have hfarBound : ∀ e ∈ r.toList,
          ((axisCoord isX q : ℤ) - (axisCoord isX p : ℤ)) ^ 2 ≤ dist2 q e.1 :=
        fun e he => plane_le_dist2 q p e.1 isX
          (Or.inr ⟨le_of_lt hside, hbr e he⟩)
      have hstep := branchStep_spec q l r
        (((axisCoord isX q : ℤ) - (axisCoord isX p : ℤ)) ^ 2)
        (if dist2 q p < dist2 q b.1 then (p, pl) else b)
        (fun b2 => ihl hwl b2) (fun b2 => ihr hwr b2) hfarBound
      have hrw : nnVisit q (KdTree.node p pl isX l r) b =
          (if ((axisCoord isX q : ℤ) - (axisCoord isX p : ℤ)) ^ 2 <
              dist2 q (nnVisit q l (if dist2 q p < dist2 q b.1 then (p, pl) else b)).1
            then nnVisit q r
              (nnVisit q l (if dist2 q p < dist2 q b.1 then (p, pl) else b))
            else nnVisit q l (if dist2 q p < dist2 q b.1 then (p, pl) else b)) := by
        simp only [nnVisit]
        rw [if_pos hside]
      rw [hrw]
      obtain ⟨hsm, hsd, hsnear, hsfar⟩ := hstep
      refine ⟨?_, le_trans hsd hb1le, ?_⟩
      · rcases hsm with h1 | h1 | h1
        · rcases hb1cases with h2 | h2
          · right
            rw [h1, h2]
            simp [KdTree.toList]
          · left
            rw [h1, h2]
        · right
          simp only [KdTree.toList, List.mem_append, List.mem_cons]
          exact Or.inl h1
        · right
          simp only [KdTree.toList, List.mem_append, List.mem_cons]
          exact Or.inr (Or.inr h1)
      · intro e he
        simp only [KdTree.toList, List.mem_append, List.mem_cons] at he
        rcases he with he | he | he
        · exact hsnear e he
        · rw [he]
          exact le_trans hsd hb1p
        · exact hsfar e he
    · have hfarBound : ∀ e ∈ l.toList,
          ((axisCoord isX q : ℤ) - (axisCoord isX p : ℤ)) ^ 2 ≤ dist2 q e.1 :=
        fun e he => plane_le_dist2 q p e.1 isX
          (Or.inl ⟨hbl e he, not_lt.1 hside⟩)
      have hstep := branchStep_spec q r l
        (((axisCoord isX q : ℤ) - (axisCoord isX p : ℤ)) ^ 2)
        (if dist2 q p < dist2 q b.1 then (p, pl) else b)
        (fun b2 => ihr hwr b2) (fun b2 => ihl hwl b2) hfarBound
      have hrw : nnVisit q (KdTree.node p pl isX l r) b =
          (if ((axisCoord isX q : ℤ) - (axisCoord isX p : ℤ)) ^ 2 <
              dist2 q (nnVisit q r (if dist2 q p < dist2 q b.1 then (p, pl) else b)).1
            then nnVisit q l
              (nnVisit q r (if dist2 q p < dist2 q b.1 then (p, pl) else b))
            else nnVisit q r (if dist2 q p < dist2 q b.1 then (p, pl) else b)) := by
        simp only [nnVisit]
        rw [if_neg hside]
      rw [hrw]
      obtain ⟨hsm, hsd, hsnear, hsfar⟩ := hstep
      refine ⟨?_, le_trans hsd hb1le, ?_⟩
      · rcases hsm with h1 | h1 | h1
        · rcases hb1cases with h2 | h2
          · right
            rw [h1, h2]
            simp [KdTree.toList]
          · left
            rw [h1, h2]
        · right
          simp only [KdTree.toList, List.mem_append, List.mem_cons]
          exact Or.inr (Or.inr h1)
        · right
          simp only [KdTree.toList, List.mem_append, List.mem_cons]
          exact Or.inl h1
      · intro e he
        simp only [KdTree.toList, List.mem_append, List.mem_cons] at he
        rcases he with he | he | he
        · exact hsfar e he
        · rw [he]
          exact le_trans hsd hb1p
        · exact hsnear e he

/-- On a nonempty well-formed tree, `nearest_neighbor` returns a stored
entry of minimal squared distance. -/
theorem nearest_neighbor_spec {P : Type} (t : KdTree P) (hwf : t.WF)
    (hne : t ≠ KdTree.empty) (q : Point) :
    ∃ p pl, t.nearest_neighbor q = some (p, pl) ∧ (p, pl) ∈ t.toList ∧
      ∀ e ∈ t.toList, dist2 q p ≤ dist2 q e.1 := by
  match t with
  | KdTree.empty => exact absurd rfl hne
  | KdTree.node p pl isX l r =>
    obtain ⟨hmem, _hd, hmin⟩ :=
      nnVisit_spec q (KdTree.node p pl isX l r) hwf (p, pl)
    refine ⟨(nnVisit q (KdTree.node p pl isX l r) (p, pl)).1,
      (nnVisit q (KdTree.node p pl isX l r) (p, pl)).2, rfl, ?_, hmin⟩
    rcases hmem with h | h
    · rw [h]
      simp [KdTree.toList]
    · exact h

/-- `nearest_neighbor` returns `some` exactly on nonempty trees. -/
theorem nearest_neighbor_isSome {P : Type} (t : KdTree P)
    (hne : t ≠ KdTree.empty) (q : Point) :
    (t.nearest_neighbor q).isSome = true := by
  match t with
  | KdTree.empty => exact absurd rfl hne
  | KdTree.node p pl isX l r => rfl

/-- C1.  For every entry list used to build the tree via `from_vector`
and every query point: on the empty list the query returns `none`; on a
nonempty list it returns `some (p, payload)` with `(p, payload)` an
input entry whose squared Euclidean distance to the query is at most
that of every other input entry. -/
theorem C1_from_vector_nearest_neighbor_correct {P : Type}
    (entries : List (Point × P)) (q : Point) :
    (entries = [] → (KdTree.from_vector entries).nearest_neighbor q = none) ∧
    (entries ≠ [] → ∃ p pl,
      (KdTree.from_vector entries).nearest_neighbor q = some (p, pl) ∧
      (p, pl) ∈ entries ∧
      ∀ e ∈ entries, dist2 q p ≤ dist2 q e.1) := by
  constructor
  · intro h
    subst h
    rfl
  · intro h
    obtain ⟨p, pl, heq, hmem, hmin⟩ :=
      nearest_neighbor_spec (KdTree.from_vector entries)
        (from_vector_wf entries) (from_vector_ne_empty entries h) q
    refine ⟨p, pl, heq, ?_, ?_⟩
    · exact (from_vector_toList_perm entries).mem_iff.1 hmem
    · intro e he
      exact hmin e ((from_vector_toList_perm entries).mem_iff.2 he)

/-! ## Rasterization loop lemmas. -/

theorem foldl_renderStep_none {P : Type} (t : KdTree P) (c : Point × P → Rgb) :
    ∀ l : List (Nat × Nat), l.foldl (renderStep t c) none = none := by
  intro l
  induction l with
  | nil => rfl
  | cons x l ih =>
    rw [List.foldl_cons]
    exact ih

theorem renderFold_cons_some {P : Type} (t : KdTree P) (c : Point × P → Rgb)
    (xy : Nat × Nat) (l : List (Nat × Nat)) (pix0 : Nat → Nat → Rgb)
    (e : Point × P) (h : t.nearest_neighbor ⟨xy.1, xy.2⟩ = some e) :
    renderFold t c (xy :: l) pix0 =
      renderFold t c l
        (fun x y => if x = xy.1 ∧ y = xy.2 then c e else pix0 x y) := by
  simp only [renderFold, List.foldl_cons]
  congr 1
  simp [renderStep, h]

theorem renderFold_cons_none {P : Type} (t : KdTree P) (c : Point × P → Rgb)
    (xy : Nat × Nat) (l : List (Nat × Nat)) (pix0 : Nat → Nat → Rgb)
    (h : t.nearest_neighbor ⟨xy.1, xy.2⟩ = none) :
    renderFold t c (xy :: l) pix0 = none := by
  simp only [renderFold, List.foldl_cons]
  have h1 : renderStep t c (some pix0) xy = none := by
    simp [renderStep, h]
  rw [h1]
  exact foldl_renderStep_none t c l

/-- On a nonempty tree, the pixel loop never hits the `unwrap` panic. -/
theorem renderFold_isSome {P : Type} (t : KdTree P)
    (hne : t ≠ KdTree.empty) (c : Point × P → Rgb) :
    ∀ (l : List (Nat × Nat)) (pix0 : Nat → Nat → Rgb),
      (renderFold t c l pix0).isSome = true := by
  intro l
  induction l with
  | nil => intro pix0; rfl
  | cons xy l ih =>
    intro pix0
    obtain ⟨e, he⟩ := Option.isSome_iff_exists.1
      (nearest_neighbor_isSome t hne ⟨xy.1, xy.2⟩)
    rw [renderFold_cons_some t c xy l pix0 e he]
    exact ih _

/-- Pixels whose coordinates are not in the processed list keep their
initial value. -/
theorem renderFold_pix_of_not_mem {P : Type} (t : KdTree P)
    (c : Point × P → Rgb) :
    ∀ (l : List (Nat × Nat)) (pix0 : Nat → Nat → Rgb)
      (pfn : Nat → Nat → Rgb) (x y : Nat),
      renderFold t c l pix0 = some pfn → (x, y) ∉ l → pfn x y = pix0 x y := by
  intro l
  induction l with
  | nil =>
    intro pix0 pfn x y h _
    rw [← Option.some.inj h]
  | cons xy l ih =>
    intro pix0 pfn x y h hmem
    cases hNN : t.nearest_neighbor ⟨xy.1, xy.2⟩ with
    | none =>
      rw [renderFold_cons_none t c xy l pix0 hNN] at h
      simp at h
    | some e =>
      rw [renderFold_cons_some t c xy l pix0 e hNN] at h
      have hnot : ¬(x = xy.1 ∧ y = xy.2) := by
        rintro ⟨h1, h2⟩
        exact hmem (by rw [h1, h2]; exact List.mem_cons_self _ _)
      have hout := ih _ pfn x y h (fun hc => hmem (List.mem_cons_of_mem _ hc))
      rw [hout]
      simp [hnot]

/-- Each pixel of the processed list ends up holding exactly the color
derived from its own nearest-neighbor query. -/
theorem renderFold_pix_of_mem {P : Type} (t : KdTree P)
    (c : Point × P → Rgb) :
    ∀ (l : List (Nat × Nat)) (pix0 : Nat → Nat → Rgb)
      (pfn : Nat → Nat → Rgb) (x y : Nat) (e : Point × P),
      l.Nodup → renderFold t c l pix0 = some pfn → (x, y) ∈ l →
      t.nearest_neighbor ⟨x, y⟩ = some e → pfn x y = c e := by
  intro l
  induction l with
  | nil =>
    intro pix0 pfn x y e _ _ hmem _
    exact absurd hmem (List.not_mem_nil _)
  | cons xy l ih =>
    intro pix0 pfn x y e hnd h hmem hNN
    rcases List.mem_cons.1 hmem with heq | hmem2
    · subst heq
      rw [renderFold_cons_some t c (x, y) l pix0 e hNN] at h
      have hnotmem : (x, y) ∉ l := (List.nodup_cons.1 hnd).1
      have hout := renderFold_pix_of_not_mem t c l _ pfn x y h hnotmem
      rw [hout]
      simp
    · cases hNN2 : t.nearest_neighbor ⟨xy.1, xy.2⟩ with
      | none =>
        rw [renderFold_cons_none t c xy l pix0 hNN2] at h
        simp at h
      | some e2 =>
        rw [renderFold_cons_some t c xy l pix0 e2 hNN2] at h
        exact ih _ pfn x y e (List.nodup_cons.1 hnd).2 h hmem2 hNN

theorem mem_pixelPositions (w h x y : Nat) :
    (x, y) ∈ pixelPositions w h ↔ x < w ∧ y < h := by
  constructor
  · intro hm
    obtain ⟨⟨ay, ax⟩, ha, hae⟩ := List.mem_map.1 hm
    obtain ⟨h1, h2⟩ := List.mem_product.1 ha
    obtain ⟨hx, hy⟩ := Prod.mk.injEq .. ▸ hae
    subst hx
    subst hy
    exact ⟨List.mem_range.1 h2, List.mem_range.1 h1⟩
  · rintro ⟨hx, hy⟩
    exact List.mem_map.2
      ⟨(y, x), List.mem_product.2 ⟨List.mem_range.2 hy, List.mem_range.2 hx⟩,
        rfl⟩

theorem nodup_pixelPositions (w h : Nat) : (pixelPositions w h).Nodup := by
  apply List.Nodup.map
  · intro a b hab
    cases a
    cases b
    simpa [Prod.ext_iff, and_comm] using hab
  · exact (List.nodup_range h).product (List.nodup_range w)

theorem ne_empty_of_nearest_some {P : Type} (t : KdTree P) (q : Point)
    (e : Point × P) (h : t.nearest_neighbor q = some e) :
    t ≠ KdTree.empty := by
  intro hc
  subst hc
  simp [KdTree.nearest_neighbor] at h

/-! ## Claim theorems for the rasterizers. -/

/-- C2.  With `npoints > 0` and a sampler output of `npoints` pairwise
distinct points inside the image's bounding box, the built k-d tree is
nonempty, every per-pixel `nearest_neighbor` call returns `some`, and
both rasterizers run to completion (the `unwrap` never panics, modelled
as the whole call returning `some`). -/
theorem C2_no_panic_when_sampler_honored
    (img : RgbImage) (color1 color2 : Rgb) (colorStream : Nat → Rgb)
    (npoints : Nat) (pts : List Point)
    (hn : 0 < npoints) (hlen : pts.length = npoints) (_hnd : pts.Nodup)
    (_hbox : ∀ p ∈ pts,
      (BoundingBox.from_dimensions img.width img.height).contains p = true) :
    KdTree.from_vector (pts.map fun pt => (pt, ())) ≠ KdTree.empty ∧
    (∀ x y : Nat,
      ((KdTree.from_vector (pts.map fun pt => (pt, ()))).nearest_neighbor
        ⟨x, y⟩).isSome = true) ∧
    (gradient_voronoi img color1 color2 npoints pts).isSome = true ∧
    (random_voronoi img colorStream npoints pts).isSome = true := by
  have hne : pts ≠ [] := by
    intro hc
    subst hc
    simp at hlen
    omega
  have hmapne : (pts.map fun pt => (pt, ())) ≠ [] := by
    simpa using hne
  have henumne : (pts.enum.map fun ie => (ie.2, colorStream ie.1)) ≠ [] := by
    intro hc
    have hlen2 := congrArg List.length hc
    simp [List.enum_length] at hlen2
    exact hne hlen2
  have ht1 := from_vector_ne_empty _ hmapne
  have ht2 := from_vector_ne_empty _ henumne
  have hnz : ¬npoints = 0 := by omega
  refine ⟨ht1, fun x y => nearest_neighbor_isSome _ ht1 ⟨x, y⟩, ?_, ?_⟩
  · simp only [gradient_voronoi, if_neg hnz]
    rw [Option.isSome_map']
    exact renderFold_isSome _ ht1 _ _ _
  · simp only [random_voronoi, if_neg hnz]
    rw [Option.isSome_map']
    exact renderFold_isSome _ ht2 _ _ _

/-- C3.  In `random_voronoi` with `npoints > 0`, the color written to
each in-bounds pixel `(x, y)` is exactly the color payload stored with
the seed returned by `nearest_neighbor` for query point `(x, y)`. -/
theorem C3_random_pixel_gets_nearest_payload
    (img : RgbImage) (colorStream : Nat → Rgb) (npoints : Nat)
    (pts : List Point) (x y : Nat) (p : Point) (col : Rgb)
    (hn : npoints ≠ 0) (hx : x < img.width) (hy : y < img.height)
    (hNN : (KdTree.from_vector
        (pts.enum.map fun ie => (ie.2, colorStream ie.1))).nearest_neighbor
        ⟨x, y⟩ = some (p, col)) :
    (random_voronoi img colorStream npoints pts).map (fun i => i.pix x y) =
      some col := by
  have htne := ne_empty_of_nearest_some _ _ _ hNN
  obtain ⟨pfn, hpfn⟩ := Option.isSome_iff_exists.1
    (renderFold_isSome _ htne (fun e => e.2)
      (pixelPositions img.width img.height) img.pix)
  have hpix := renderFold_pix_of_mem _ _ _ img.pix pfn x y (p, col)
    (nodup_pixelPositions img.width img.height) hpfn
    ((mem_pixelPositions img.width img.height x y).2 ⟨hx, hy⟩) hNN
  simp only [random_voronoi, if_neg hn, hpfn, Option.map_map, Option.map_some']
  exact congrArg some hpix

/-- C4.  In `gradient_voronoi` with `npoints > 0`, each in-bounds pixel
receives per channel the value `color1[i] + c * (color2[i] - color1[i])`
computed in binary64 with `c = nearest.x / image_width`, truncated (not
rounded) to the 8-bit range by the `as u8` cast; the pixel's own
coordinates do not enter the formula, so pixels sharing a nearest seed
x-coordinate receive the same flat shade. -/
theorem C4_gradient_pixel_formula
    (img : RgbImage) (color1 color2 : Rgb) (npoints : Nat)
    (pts : List Point) (x y : Nat) (p : Point) (u : Unit)
    (hn : npoints ≠ 0) (hx : x < img.width) (hy : y < img.height)
    (hNN : (KdTree.from_vector (pts.map fun pt => (pt, ()))).nearest_neighbor
        ⟨x, y⟩ = some (p, u)) :
    (gradient_voronoi img color1 color2 npoints pts).map (fun i => i.pix x y) =
      some
        ⟨f2u8 (fadd (toF64 color1.r)
            (fmul (fdiv (toF64 p.x) (toF64 img.width))
              (fsub (toF64 color2.r) (toF64 color1.r)))),
          f2u8 (fadd (toF64 color1.g)
            (fmul (fdiv (toF64 p.x) (toF64 img.width))
              (fsub (toF64 color2.g) (toF64 color1.g)))),
          f2u8 (fadd (toF64 color1.b)
            (fmul (fdiv (toF64 p.x) (toF64 img.width))
              (fsub (toF64 color2.b) (toF64 color1.b))))⟩ ∧
    (∀ x2 y2 : Nat, ∀ p2 : Point, ∀ u2 : Unit, x2 < img.width →
      y2 < img.height →
      (KdTree.from_vector (pts.map fun pt => (pt, ()))).nearest_neighbor
        ⟨x2, y2⟩ = some (p2, u2) →
      p2.x = p.x →
      (gradient_voronoi img color1 color2 npoints pts).map
          (fun i => i.pix x2 y2) =
        (gradient_voronoi img color1 color2 npoints pts).map
          (fun i => i.pix x y)) := by
  have htne := ne_empty_of_nearest_some _ _ _ hNN
  have hform : ∀ x3 y3 : Nat, ∀ p3 : Point, ∀ u3 : Unit, x3 < img.width →
      y3 < img.height →
      (KdTree.from_vector (pts.map fun pt => (pt, ()))).nearest_neighbor
        ⟨x3, y3⟩ = some (p3, u3) →
      (gradient_voronoi img color1 color2 npoints pts).map
          (fun i => i.pix x3 y3) =
        some
          ⟨f2u8 (fadd (toF64 color1.r)
              (fmul (fdiv (toF64 p3.x) (toF64 img.width))
                (fsub (toF64 color2.r) (toF64 color1.r)))),
            f2u8 (fadd (toF64 color1.g)
              (fmul (fdiv (toF64 p3.x) (toF64 img.width))
                (fsub (toF64 color2.g) (toF64 color1.g)))),
            f2u8 (fadd (toF64 color1.b)
              (fmul (fdiv (toF64 p3.x) (toF64 img.width))
                (fsub (toF64 color2.b) (toF64 color1.b))))⟩ := by
    intro x3 y3 p3 u3 hx3 hy3 hNN3
    obtain ⟨pfn, hpfn⟩ := Option.isSome_iff_exists.1
      (renderFold_isSome _ htne
        (fun e =>
          ⟨f2u8 (fadd (toF64 color1.r)
              (fmul (fdiv (toF64 e.1.x) (toF64 img.width))
                (fsub (toF64 color2.r) (toF64 color1.r)))),
            f2u8 (fadd (toF64 color1.g)
              (fmul (fdiv (toF64 e.1.x) (toF64 img.width))
                (fsub (toF64 color2.g) (toF64 color1.g)))),
            f2u8 (fadd (toF64 color1.b)
              (fmul (fdiv (toF64 e.1.x) (toF64 img.width))
                (fsub (toF64 color2.b) (toF64 color1.b))))⟩)
        (pixelPositions img.width img.height) img.pix)
    have hpix := renderFold_pix_of_mem _ _ _ img.pix pfn x3 y3 (p3, u3)
      (nodup_pixelPositions img.width img.height) hpfn
      ((mem_pixelPositions img.width img.height x3 y3).2 ⟨hx3, hy3⟩) hNN3
    simp only [gradient_voronoi, if_neg hn, hpfn, Option.map_map,
      Option.map_some']
    exact congrArg some hpix
  refine ⟨hform x y p u hx hy hNN, ?_⟩
  intro x2 y2 p2 u2 hx2 hy2 hNN2 hpx
  rw [hform x2 y2 p2 u2 hx2 hy2 hNN2, hform x y p u hx hy hNN, hpx]

/-- C5.  With `npoints = 0` both rasterizers are a silent no-op: the
image is returned untouched and no error is raised. -/
theorem C5_npoints_zero_is_noop (img : RgbImage) (color1 color2 : Rgb)
    (colorStream : Nat → Rgb) (pts : List Point) :
    gradient_voronoi img color1 color2 0 pts = some img ∧
    random_voronoi img colorStream 0 pts = some img :=
  ⟨rfl, rfl⟩

/-- C9.  The pipeline is deterministic: with the randomness of the
collaborators fixed (the sampled points and the color stream, which are
functions of the random seed) and identical inputs, two runs of either
rasterizer produce identical outputs. -/
theorem C9_pipeline_deterministic
    (imgA imgB : RgbImage) (c1A c1B c2A c2B : Rgb)
    (csA csB : Nat → Rgb) (nA nB : Nat) (ptsA ptsB : List Point)
    (h1 : imgA = imgB) (h2 : c1A = c1B) (h3 : c2A = c2B) (h4 : csA = csB)
    (h5 : nA = nB) (h6 : ptsA = ptsB) :
    gradient_voronoi imgA c1A c2A nA ptsA =
      gradient_voronoi imgB c1B c2B nB ptsB ∧
    random_voronoi imgA csA nA ptsA = random_voronoi imgB csB nB ptsB := by
  subst h1
  subst h2
  subst h3
  subst h4
  subst h5
  subst h6
  exact ⟨rfl, rfl⟩

/-! ## Claim theorems for the bounding box. -/

/-- C6.  Folding `expand_by_point` from `new()` over any permutation of
a point sequence yields an identical box: the fold is
order-independent. -/
theorem C6_from_iter_order_independent (l1 l2 : List Point)
    (h : l1.Perm l2) :
    BoundingBox.from_iter l1 = BoundingBox.from_iter l2 := by
  haveI : RightCommutative BoundingBox.expand_by_point := by
    refine ⟨fun bx p q => ?_⟩
    simp only [BoundingBox.expand_by_point, Point.lowest, Point.highest,
      BoundingBox.mk.injEq, Point.mk.injEq]
    refine ⟨⟨?_, ?_⟩, ?_, ?_⟩ <;> omega
  simp only [BoundingBox.from_iter]
  exact h.foldl_eq BoundingBox.new

/-- C7 counterexample.  The claim quantifies over every `BoundingBox`,
but the empty sentinel box `new()` (min = u32 MAX, max = u32 MIN) fails
it: none of its four `points()` corners satisfies `contains`. -/
theorem C7_counterexample :
    (BoundingBox.new.points.all fun pt => BoundingBox.new.contains pt) =
      false := by
  decide

/-- C7 (amended).  For every box whose min is component-wise at most
its max — every box that has absorbed at least one point, excluding
only the inverted empty sentinel — all four `points()` corners satisfy
`contains`; and the concrete box of `from_dimensions_and_origin
((3,5), 7, 5)` has corners `[(3,5),(10,5),(10,10),(3,10)]` in clockwise
order, contains `(3,5)` and `(10,10)`, and contains neither `(0,0)` nor
`(40,40)`. -/
theorem C7_corners_contained
    : (∀ bx : BoundingBox, bx.min.x ≤ bx.max.x → bx.min.y ≤ bx.max.y →
        ∀ pt ∈ bx.points, bx.contains pt = true) ∧
      (BoundingBox.from_dimensions_and_origin ⟨3, 5⟩ 7 5).points =
        [⟨3, 5⟩, ⟨10, 5⟩, ⟨10, 10⟩, ⟨3, 10⟩] ∧
      (BoundingBox.from_dimensions_and_origin ⟨3, 5⟩ 7 5).contains ⟨3, 5⟩ =
        true ∧
      (BoundingBox.from_dimensions_and_origin ⟨3, 5⟩ 7 5).contains ⟨10, 10⟩ =
        true ∧
      (BoundingBox.from_dimensions_and_origin ⟨3, 5⟩ 7 5).contains ⟨0, 0⟩ =
        false ∧
      (BoundingBox.from_dimensions_and_origin ⟨3, 5⟩ 7 5).contains ⟨40, 40⟩ =
        false := by
  refine ⟨?_, by decide, by decide, by decide, by decide, by decide⟩
  intro bx h1 h2 pt hpt
  simp only [BoundingBox.points, List.mem_cons, List.not_mem_nil,
    or_false] at hpt
  rcases hpt with h | h | h | h <;> subst h <;>
    simp only [BoundingBox.contains, Bool.and_eq_true, decide_eq_true_eq,
      ge_iff_le] <;>
    omega

/-- C8 counterexample.  `from_dimensions_and_origin` performs the
corner addition in `u32`: at origin `(u32 MAX, 0)` with width 1 and
height 1 the x sum wraps to 0, no error is surfaced (the function
returns a plain box), and the resulting box is corrupted — it spans the
whole x axis, containing e.g. `(12345, 0)`, far outside the intended
1-by-1 rectangle — while the spec's checked construction rejects the
input. -/
theorem C8_counterexample :
    BoundingBox.from_dimensions_and_origin ⟨U32MOD - 1, 0⟩ 1 1 =
      ⟨⟨0, 0⟩, ⟨U32MOD - 1, 1⟩⟩ ∧
    (BoundingBox.from_dimensions_and_origin ⟨U32MOD - 1, 0⟩ 1 1).contains
      ⟨12345, 0⟩ = true ∧
    BoundingBox.from_dimensions_and_origin_checked ⟨U32MOD - 1, 0⟩ 1 1 =
      none := by
  refine ⟨by decide, by decide, by decide⟩

/-- C8 (amended).  The corner additions of `from_dimensions_and_origin`
wrap modulo `2^32` with no construction-time error: for any in-domain
origin the result is the box spanned by the origin and the *wrapped*
corner; when the sums do not overflow this coincides with the intended
box and with the spec's checked construction. -/
theorem C8_overflow_wraps_silently (origin : Point) (width height : Nat)
    (hx : origin.x < U32MOD) (hy : origin.y < U32MOD) :
    BoundingBox.from_dimensions_and_origin origin width height =
      ⟨⟨min origin.x ((origin.x + width) % U32MOD),
        min origin.y ((origin.y + height) % U32MOD)⟩,
        ⟨max origin.x ((origin.x + width) % U32MOD),
          max origin.y ((origin.y + height) % U32MOD)⟩⟩ ∧
    (origin.x + width < U32MOD → origin.y + height < U32MOD →
      BoundingBox.from_dimensions_and_origin origin width height =
        ⟨origin, ⟨origin.x + width, origin.y + height⟩⟩ ∧
      BoundingBox.from_dimensions_and_origin_checked origin width height =
        some ⟨origin, ⟨origin.x + width, origin.y + height⟩⟩) := by
  obtain ⟨ox, oy⟩ := origin
  simp only at hx hy
  constructor
  · simp only [BoundingBox.from_dimensions_and_origin,
      BoundingBox.expand_by_point, BoundingBox.new, Point.lowest,
      Point.highest, BoundingBox.mk.injEq, Point.mk.injEq]
    have hmx : (ox + width) % U32MOD < U32MOD :=
      Nat.mod_lt _ (by simp [U32MOD])
    omega
  · intro h1 h2
    constructor
    · simp only [BoundingBox.from_dimensions_and_origin,
        BoundingBox.expand_by_point, BoundingBox.new, Point.lowest,
        Point.highest, Nat.mod_eq_of_lt h1, Nat.mod_eq_of_lt h2,
        BoundingBox.mk.injEq, Point.mk.injEq]
      omega
    · simp only [BoundingBox.from_dimensions_and_origin_checked,
        BoundingBox.expand_by_point, BoundingBox.new, Point.lowest,
        Point.highest]
      rw [if_pos ⟨h1, h2⟩]
      simp only [Option.some.injEq, BoundingBox.mk.injEq, Point.mk.injEq]
      omega

/-- C10 counterexample.  The claim's formula fails on a constructible
box: after absorbing the single point `(2^31, 2^31)` (so min = max =
`(2^31, 2^31)`), the `u32` sum `min.x + max.x` wraps to 0 and `center()`
returns `(0, 0)`, not the claimed truncating midpoint
`((min.x + max.x) / 2, (min.y + max.y) / 2) = (2^31, 2^31)`. -/
theorem C10_counterexample :
    (BoundingBox.new.expand_by_point ⟨2 ^ 31, 2 ^ 31⟩).center ≠
      ⟨((BoundingBox.new.expand_by_point ⟨2 ^ 31, 2 ^ 31⟩).min.x +
          (BoundingBox.new.expand_by_point ⟨2 ^ 31, 2 ^ 31⟩).max.x) / 2,
        ((BoundingBox.new.expand_by_point ⟨2 ^ 31, 2 ^ 31⟩).min.y +
          (BoundingBox.new.expand_by_point ⟨2 ^ 31, 2 ^ 31⟩).max.y) / 2⟩ ∧
    (BoundingBox.new.expand_by_point ⟨2 ^ 31, 2 ^ 31⟩).center = ⟨0, 0⟩ := by
  refine ⟨by decide, by decide⟩

/-- C10 (amended).  `center()` computes
`((min.x + max.x) / 2, (min.y + max.y) / 2)` with the additions
performed in `u32`, wrapping modulo `2^32` on overflow; it equals the
claimed exact truncating midpoint precisely on boxes whose coordinate
sums do not overflow `u32`, and the center of the box from origin
`(2,4)` with width 8 and height 6 is `(6,7)`. -/
theorem C10_center_wrapping_midpoint :
    (BoundingBox.from_dimensions_and_origin ⟨2, 4⟩ 8 6).center = ⟨6, 7⟩ ∧
    (∀ bx : BoundingBox,
      bx.center = ⟨((bx.min.x + bx.max.x) % U32MOD) / 2,
        ((bx.min.y + bx.max.y) % U32MOD) / 2⟩) ∧
    ∀ bx : BoundingBox, bx.min.x + bx.max.x < U32MOD →
      bx.min.y + bx.max.y < U32MOD →
      bx.center = ⟨(bx.min.x + bx.max.x) / 2, (bx.min.y + bx.max.y) / 2⟩ := by
  refine ⟨by decide, fun bx => rfl, ?_⟩
  intro bx h1 h2
  simp [BoundingBox.center, Nat.mod_eq_of_lt h1, Nat.mod_eq_of_lt h2]

/-! ## Concrete witnesses instantiating the hypothesis-bearing claim
theorems. -/

set_option maxRecDepth 100000

/-- Witness for C1 at a concrete two-entry list and query. -/
theorem C1_witness :
    ([(⟨0, 0⟩, 1), (⟨3, 4⟩, 2)] : List (Point × Nat)) ≠ [] ∧
    ∃ p : Point, ∃ pl : Nat,
      (KdTree.from_vector
          ([(⟨0, 0⟩, 1), (⟨3, 4⟩, 2)] : List (Point × Nat))).nearest_neighbor
          ⟨1, 1⟩ = some (p, pl) ∧
      (p, pl) ∈ ([(⟨0, 0⟩, 1), (⟨3, 4⟩, 2)] : List (Point × Nat)) ∧
      ∀ e ∈ ([(⟨0, 0⟩, 1), (⟨3, 4⟩, 2)] : List (Point × Nat)),
        dist2 ⟨1, 1⟩ p ≤ dist2 ⟨1, 1⟩ e.1 :=
  ⟨by decide,
    (C1_from_vector_nearest_neighbor_correct
      ([(⟨0, 0⟩, 1), (⟨3, 4⟩, 2)] : List (Point × Nat)) ⟨1, 1⟩).2 (by decide)⟩

/-- Witness for C2 on a 1-by-1 image with one seed point. -/
theorem C2_witness :
    KdTree.from_vector (([⟨0, 0⟩] : List Point).map fun pt => (pt, ())) ≠
      KdTree.empty ∧
    ((KdTree.from_vector
        (([⟨0, 0⟩] : List Point).map fun pt => (pt, ()))).nearest_neighbor
        ⟨2, 3⟩).isSome = true ∧
    (gradient_voronoi ⟨1, 1, fun _ _ => ⟨0, 0, 0⟩⟩ ⟨0, 0, 0⟩ ⟨0, 0, 0⟩ 1
        [⟨0, 0⟩]).isSome = true ∧
    (random_voronoi ⟨1, 1, fun _ _ => ⟨0, 0, 0⟩⟩ (fun _ => ⟨0, 0, 0⟩) 1
        [⟨0, 0⟩]).isSome = true := by
  have h := C2_no_panic_when_sampler_honored ⟨1, 1, fun _ _ => ⟨0, 0, 0⟩⟩
    ⟨0, 0, 0⟩ ⟨0, 0, 0⟩ (fun _ => ⟨0, 0, 0⟩) 1 [⟨0, 0⟩]
    (by decide) (by decide) (by decide) (by decide)
  exact ⟨h.1, h.2.1 2 3, h.2.2.1, h.2.2.2⟩

/-- Witness for C3 on a 1-by-1 image with one seed point. -/
theorem C3_witness :
    (random_voronoi ⟨1, 1, fun _ _ => ⟨0, 0, 0⟩⟩ (fun _ => ⟨9, 8, 7⟩) 1
        [⟨0, 0⟩]).map (fun i => i.pix 0 0) = some ⟨9, 8, 7⟩ :=
  C3_random_pixel_gets_nearest_payload ⟨1, 1, fun _ _ => ⟨0, 0, 0⟩⟩
    (fun _ => ⟨9, 8, 7⟩) 1 [⟨0, 0⟩] 0 0 ⟨0, 0⟩ ⟨9, 8, 7⟩
    (by decide) (by decide) (by decide) (by decide)

/-- Witness for C4 on a 1-by-1 image with one seed point. -/
theorem C4_witness :
    (gradient_voronoi ⟨1, 1, fun _ _ => ⟨0, 0, 0⟩⟩ ⟨0, 0, 0⟩ ⟨0, 0, 0⟩ 1
        [⟨0, 0⟩]).map (fun i => i.pix 0 0) =
      some
        ⟨f2u8 (fadd (toF64 0)
            (fmul (fdiv (toF64 0) (toF64 1)) (fsub (toF64 0) (toF64 0)))),
          f2u8 (fadd (toF64 0)
            (fmul (fdiv (toF64 0) (toF64 1)) (fsub (toF64 0) (toF64 0)))),
          f2u8 (fadd (toF64 0)
            (fmul (fdiv (toF64 0) (toF64 1)) (fsub (toF64 0) (toF64 0))))⟩ :=
  (C4_gradient_pixel_formula ⟨1, 1, fun _ _ => ⟨0, 0, 0⟩⟩ ⟨0, 0, 0⟩ ⟨0, 0, 0⟩
    1 [⟨0, 0⟩] 0 0 ⟨0, 0⟩ () (by decide) (by decide) (by decide) (by decide)).1

/-- Witness for C6 on a concrete two-point permutation. -/
theorem C6_witness :
    ([⟨1, 2⟩, ⟨30, 4⟩] : List Point).Perm [⟨30, 4⟩, ⟨1, 2⟩] ∧
    BoundingBox.from_iter [⟨1, 2⟩, ⟨30, 4⟩] =
      BoundingBox.from_iter [⟨30, 4⟩, ⟨1, 2⟩] :=
  ⟨by decide,
    C6_from_iter_order_independent [⟨1, 2⟩, ⟨30, 4⟩] [⟨30, 4⟩, ⟨1, 2⟩]
      (by decide)⟩

/-- Witness for the amended C7 on the concrete test box. -/
theorem C7_witness :
    (BoundingBox.from_dimensions_and_origin ⟨3, 5⟩ 7 5).min.x ≤
      (BoundingBox.from_dimensions_and_origin ⟨3, 5⟩ 7 5).max.x ∧
    (BoundingBox.from_dimensions_and_origin ⟨3, 5⟩ 7 5).min.y ≤
      (BoundingBox.from_dimensions_and_origin ⟨3, 5⟩ 7 5).max.y ∧
    (BoundingBox.from_dimensions_and_origin ⟨3, 5⟩ 7 5).contains ⟨10, 5⟩ =
      true :=
  ⟨by decide, by decide,
    C7_corners_contained.1 (BoundingBox.from_dimensions_and_origin ⟨3, 5⟩ 7 5)
      (by decide) (by decide) ⟨10, 5⟩ (by decide)⟩

/-- Witness for the amended C8 at a non-overflowing origin. -/
theorem C8_witness :
    BoundingBox.from_dimensions_and_origin ⟨2, 4⟩ 8 6 =
      ⟨⟨min 2 ((2 + 8) % U32MOD), min 4 ((4 + 6) % U32MOD)⟩,
        ⟨max 2 ((2 + 8) % U32MOD), max 4 ((4 + 6) % U32MOD)⟩⟩ ∧
    (BoundingBox.from_dimensions_and_origin ⟨2, 4⟩ 8 6 =
        ⟨⟨2, 4⟩, ⟨2 + 8, 4 + 6⟩⟩ ∧
      BoundingBox.from_dimensions_and_origin_checked ⟨2, 4⟩ 8 6 =
        some ⟨⟨2, 4⟩, ⟨2 + 8, 4 + 6⟩⟩) :=
  ⟨(C8_overflow_wraps_silently ⟨2, 4⟩ 8 6 (by decide) (by decide)).1,
    (C8_overflow_wraps_silently ⟨2, 4⟩ 8 6 (by decide) (by decide)).2
      (by decide) (by decide)⟩

/-- Witness for C9 on concrete equal inputs. -/
theorem C9_witness :
    gradient_voronoi ⟨1, 1, fun _ _ => ⟨0, 0, 0⟩⟩ ⟨0, 0, 0⟩ ⟨0, 0, 0⟩ 1
        [⟨0, 0⟩] =
      gradient_voronoi ⟨1, 1, fun _ _ => ⟨0, 0, 0⟩⟩ ⟨0, 0, 0⟩ ⟨0, 0, 0⟩ 1
        [⟨0, 0⟩] ∧
    random_voronoi ⟨1, 1, fun _ _ => ⟨0, 0, 0⟩⟩ (fun _ => ⟨0, 0, 0⟩) 1
        [⟨0, 0⟩] =
      random_voronoi ⟨1, 1, fun _ _ => ⟨0, 0, 0⟩⟩ (fun _ => ⟨0, 0, 0⟩) 1
        [⟨0, 0⟩] :=
  C9_pipeline_deterministic _ _ _ _ _ _ _ _ _ _ _ _ rfl rfl rfl rfl rfl rfl

/-- Witness for the amended C10 on the concrete test box. -/
theorem C10_witness :
    (BoundingBox.from_dimensions_and_origin ⟨2, 4⟩ 8 6).center =
      ⟨((BoundingBox.from_dimensions_and_origin ⟨2, 4⟩ 8 6).min.x +
          (BoundingBox.from_dimensions_and_origin ⟨2, 4⟩ 8 6).max.x) / 2,
        ((BoundingBox.from_dimensions_and_origin ⟨2, 4⟩ 8 6).min.y +
          (BoundingBox.from_dimensions_and_origin ⟨2, 4⟩ 8 6).max.y) / 2⟩ :=
  C10_center_wrapping_midpoint.2.2
    (BoundingBox.from_dimensions_and_origin ⟨2, 4⟩ 8 6) (by decide) (by decide)

end Mattors
